import Mathlib

/-!
# Verification of the simphony netlist / cascading engine

Shallow embedding of `src/simphony/core/netlist.py` (the `Netlist` and
`ObjectModelNetlist` data model and the commented-out prototype of the
circuit cascading engine `_match_ports` / `connect_circuit`, which the
design document treats as the live algorithm), of the dynamic-list helper
`_dlist_insert` from `src/simphony/plugins/siepic/__init__.py`, and of the
numeric-literal reader `str2float` from `simphony.tools` (the module is
absent from the sources; it is modelled from the specification and the
grammar in the siepic plugin).

Net identifiers are modelled as integers.  The Python prototype stores
them as the decimal strings produced by the parser (`"N$"` stripped) and
compares them with `str(n)`; on canonical decimal strings that string
equality coincides with integer equality, which is what the model uses.

Python list mutation is rendered by value: `del l[i]` becomes the fallible
`delIdx?` (returning `none` exactly when Python raises `IndexError`),
`l[i] = x` becomes `List.set`, and indexing becomes `l[i]?` (with `none`
for Python's `IndexError`).  A second, heap-indexed rendering of the same
engine (`stepH` and friends) makes the aliasing structure explicit: net
lists live in a store of cells, `ComponentSimulation.__init__`'s
`copy.deepcopy` allocates a fresh cell, and in-place deletions write to
the owning cell.  That version supports the frame property of the cascade
over the original component instances.
-/

set_option linter.unusedVariables false

namespace Simphony

/-- One row of a parsed netlist: a component instance.  The Python object
carries a model able to produce `get_s_parameters() -> (f, s)`; the model
provider is external to the repository, so (modelled from the spec) the
frequency vector `f` and the port dimension `s` of its square
frequency-batched S-matrix are stored directly on the instance. -/
structure ComponentInstance where
  nets : List Int
  f : List ℚ
  s : Nat
  deriving DecidableEq, Repr

/-- Working simulation entry: `ComponentSimulation` from netlist.py, holding
an ordered net list, the frequency array, and (as its port dimension) the
s-parameter matrix. -/
structure ComponentSimulation where
  nets : List Int
  f : List ℚ
  s : Nat
  deriving DecidableEq, Repr

/-- `ComponentSimulation.__init__(component)`: deep-copies the component's
net list and pulls `(f, s)` from the model. -/
def ComponentSimulation.ofComponent (c : ComponentInstance) : ComponentSimulation :=
  { nets := c.nets, f := c.f, s := c.s }

/-- The parser-produced netlist object (`ObjectModelNetlist`): the ordered
component list together with the `net_count` counter maintained while
parsing. -/
structure ObjectModelNetlist where
  component_list : List ComponentInstance
  net_count : Int
  deriving DecidableEq, Repr

/-- `get_external_components`: the components owning at least one negative
(external) net id, in original order. -/
def ObjectModelNetlist.get_external_components (nl : ObjectModelNetlist) :
    List ComponentInstance :=
  nl.component_list.filter (fun c => c.nets.any (fun x => decide (x < 0)))

/-- The `Netlist` class (the JSON-facing data model): just the ordered
collection of component instances. -/
structure Netlist where
  components : List ComponentInstance
  deriving DecidableEq, Repr

/-- `Netlist.net_count`: flattens every component's net list and returns
`max(nets) + 1`; `none` models the `ValueError` Python's `max` raises on an
empty collection. -/
def Netlist.net_count (nl : Netlist) : Option Int :=
  ((nl.components.map (fun c => c.nets)).flatten.max?).map (fun m => m + 1)

/-- The `net_count` update performed for each `N$` item in
`ObjectModelNetlist._parse_line`:
`if int(net) > self.net_count: self.net_count = int(net)`, folded over the
net ids of one or more lines. -/
def parse_line_net_count (cnt : Int) (nets : List Int) : Int :=
  nets.foldl (fun c v => if c < v then v else c) cnt

/-- Python's `range(a, b)` as a list of integers. -/
def pyRange (a b : Int) : List Int :=
  (List.range (b - a).toNat).map (fun (i : Nat) => a + (i : Int))

/-- Python's `del l[i]`: removes the element at index `i`, or `none`
(IndexError) when `i` is out of range. -/
def delIdx? {α : Type} : List α → Nat → Option (List α)
  | [], _ => none
  | _ :: xs, 0 => some xs
  | x :: xs, n + 1 => (delIdx? xs n).map (fun l => x :: l)

/-- `[i for i, x in enumerate(nets) if x == net_id]`: the occurrence
indices of a net id inside one net list, in increasing order. -/
def occIdxs (a : Int) : List Int → List Nat
  | [] => []
  | x :: xs =>
    if x = a then 0 :: (occIdxs a xs).map (fun i => i + 1)
    else (occIdxs a xs).map (fun i => i + 1)

/-- `[component_list.index(c) for c in filtered_comps]`: the positions of
the entries whose net list contains the target id.  (Python's `index`
resolves each entry to its own position because entries are compared by
object identity.) -/
def hitIdxs (netId : Int) : List ComponentSimulation → List Nat
  | [] => []
  | e :: es =>
    if netId ∈ e.nets then 0 :: (hitIdxs netId es).map (fun i => i + 1)
    else (hitIdxs netId es).map (fun i => i + 1)

/-- `net_idx` of `_match_ports`: all `(entry, port)` occurrence indices of
the net id, grouped by filtered entry in entry order. -/
def netIdxs (net_id : Int) (component_list : List ComponentSimulation) : List Nat :=
  (component_list.filter (fun e => decide (net_id ∈ e.nets))).flatMap
    (fun e => occIdxs net_id e.nets)

/-- `if len(comp_idx) == 1: comp_idx += comp_idx` from `_match_ports`. -/
def dupIfSingle (l : List Nat) : List Nat :=
  if l.length = 1 then l ++ l else l

/-- `(comp_idx[0], net_idx[0], comp_idx[1], net_idx[1])`: `none` models the
`IndexError` raised when either list has fewer than two elements. -/
def pick4 : List Nat → List Nat → Option (Nat × Nat × Nat × Nat)
  | ca :: cb :: _, ia :: ib :: _ => some (ca, ia, cb, ib)
  | _, _ => none

/-- `_match_ports(net_id, component_list)` from netlist.py: collects the
component indices holding the net id and all occurrence indices, duplicates
a lone component index (self-loop case), and returns
`(comp_idx[0], net_idx[0], comp_idx[1], net_idx[1])`. -/
def matchPorts (net_id : Int) (component_list : List ComponentSimulation) :
    Option (Nat × Nat × Nat × Nat) :=
  pick4 (dupIfSingle (hitIdxs net_id component_list)) (netIdxs net_id component_list)

/-- Modelled from the spec: `rf.innerconnect_s` (module `simphony.core.connect`
is not in the sources) eliminates two ports of one matrix, "producing a
matrix with two fewer ports"; only the port dimension is tracked. -/
def innerconnect_s_dim (n : Nat) : Nat := n - 2

/-- Modelled from the spec: `rf.connect_s` combines two matrices into one
"sized (F, nA+nB-2, nA+nB-2)"; only the port dimension is tracked. -/
def connect_s_dim (nA nB : Nat) : Nat := nA + nB - 2

/-- The double deletion performed in the self-loop branch of
`connect_circuit`:
`del nets[ia]` followed by `del nets[ib-1]` when `ia < ib`, else
`del nets[ib]`. -/
def delTwo? (l : List Int) (ia ib : Nat) : Option (List Int) := do
  let l1 ← delIdx? l ia
  delIdx? l1 (if ia < ib then ib - 1 else ib)

/-- One iteration of the `for n in range(0, netlist.net_count + 1)` loop of
`connect_circuit`: match the two ports of net `n`, then either fold a
self-loop in place or cross-merge two entries into an appended combination
entry.  `none` models any uncaught Python exception aborting the cascade. -/
def connectStep (component_list : List ComponentSimulation) (n : Int) :
    Option (List ComponentSimulation) := do
  let (ca, ia, cb, ib) ← matchPorts n component_list
  if ca = cb then do
    -- pin occurrences in the same cell
    let A ← component_list[ca]?
    let nets' ← delTwo? A.nets ia ib
    some (component_list.set ca { A with s := innerconnect_s_dim A.s, nets := nets' })
  else do
    -- pin occurrences in different cells
    let A ← component_list[ca]?
    let B ← component_list[cb]?
    let first ← component_list.head?       -- combination.f = component_list[0].f
    let netsA ← delIdx? A.nets ia
    let netsB ← delIdx? B.nets ib
    let combination : ComponentSimulation :=
      { nets := netsA ++ netsB, f := first.f, s := connect_s_dim A.s B.s }
    let l1 ← delIdx? component_list ca
    let l2 ← delIdx? l1 (if ca < cb then cb - 1 else cb)
    some (l2 ++ [combination])

/-- The whole reduction loop, folded over a list of net ids. -/
def cascade (ids : List Int) (component_list : List ComponentSimulation) :
    Option (List ComponentSimulation) :=
  ids.foldlM connectStep component_list

/-- The net ids enumerated by the driver loop
`for n in range(0, netlist.net_count + 1)`. -/
def cascadeIds (nl : ObjectModelNetlist) : List Int :=
  pyRange 0 (nl.net_count + 1)

/-- The working set left by `connect_circuit` when its loop finishes: one
`ComponentSimulation` per component, reduced net id by net id.  `none` when
the function bails out early (`net_count == 0`) or a step raises. -/
def connectCircuitEntries (nl : ObjectModelNetlist) :
    Option (List ComponentSimulation) :=
  if nl.net_count = 0 then none
  else cascade (cascadeIds nl) (nl.component_list.map ComponentSimulation.ofComponent)

/-- `connect_circuit` from netlist.py: runs the cascade and returns
`component_list[0]` together with `netlist.get_external_components()`. -/
def connect_circuit (nl : ObjectModelNetlist) :
    Option (ComponentSimulation × List ComponentInstance) :=
  match connectCircuitEntries nl with
  | none => none
  | some es => es.head?.map (fun e => (e, nl.get_external_components))

/-- Total number of ports currently held by the working set. -/
def totalPorts (component_list : List ComponentSimulation) : Nat :=
  (component_list.map (fun e => e.nets.length)).sum

/-- Total number of occurrences of one net id across the working set. -/
def occCount (n : Int) (component_list : List ComponentSimulation) : Nat :=
  (component_list.map (fun e => e.nets.count n)).sum

/-- What the specification demands of the self-loop double deletion: keep,
in order, exactly the elements whose position is neither `ia` nor `ib`. -/
def removeExactly (l : List Int) (ia ib : Nat) : List Int :=
  (l.enum.filter (fun p => decide (p.1 ≠ ia ∧ p.1 ≠ ib))).map Prod.snd

/-! ### Basic lemmas about the Python-style list operations -/

theorem delIdx?_eq {α : Type} (l : List α) (i : Nat) :
    delIdx? l i = if i < l.length then some (l.eraseIdx i) else none := by
  induction l generalizing i with
  | nil => simp [delIdx?]
  | cons x xs ih =>
    cases i with
    | zero => simp [delIdx?]
    | succ n =>
      simp only [delIdx?, ih, List.length_cons, List.eraseIdx_cons_succ]
      by_cases h : n < xs.length
      · simp [h, Nat.succ_lt_succ h]
      · simp [h, fun hc => h (Nat.lt_of_succ_lt_succ hc)]

theorem delIdx?_of_lt {α : Type} {l : List α} {i : Nat} (h : i < l.length) :
    delIdx? l i = some (l.eraseIdx i) := by
  simp [delIdx?_eq, h]

theorem delIdx?_of_ge {α : Type} {l : List α} {i : Nat} (h : l.length ≤ i) :
    delIdx? l i = none := by
  simp [delIdx?_eq, Nat.not_lt.mpr h]

/-- Erasing at one index keeps exactly the elements at all other positions. -/
theorem eraseIdx_eq_enum_filter (l : List Int) (j : Nat) :
    l.eraseIdx j = (l.enum.filter (fun p => decide (p.1 ≠ j))).map Prod.snd := by
  induction l generalizing j with
  | nil => simp
  | cons x xs ih =>
    have hsnd : (Prod.snd ∘ Prod.map (fun i : Nat => i + 1) (id : Int → Int)) = Prod.snd := by
      funext p; rfl
    cases j with
    | zero =>
      rw [List.eraseIdx_zero, List.tail_cons, List.enum_cons', List.filter_cons,
        if_neg (by simp)]
      rw [List.filter_map]
      have hcomp : ((fun p : Nat × Int => decide (p.1 ≠ 0)) ∘ Prod.map (· + 1) id) =
          (fun _ => true) := by
        funext p; simp [Prod.map]
      rw [hcomp, List.filter_true, List.map_map, hsnd]
      exact (List.enumFrom_map_snd 0 xs).symm
    | succ n =>
      rw [List.eraseIdx_cons_succ, List.enum_cons', List.filter_cons,
        if_pos (by simp)]
      rw [List.filter_map]
      have hcomp : ((fun p : Nat × Int => decide (p.1 ≠ n + 1)) ∘ Prod.map (· + 1) id) =
          (fun p : Nat × Int => decide (p.1 ≠ n)) := by
        funext p; simp [Prod.map]
      rw [hcomp, List.map_cons, List.map_map, hsnd, ih]

theorem map_snd_shift :
    (Prod.snd ∘ Prod.map (fun i : Nat => i + 1) (id : Int → Int)) = Prod.snd := by
  funext p; rfl

theorem removeExactly_zero_succ (x : Int) (xs : List Int) (b : Nat) :
    removeExactly (x :: xs) 0 (b + 1) = xs.eraseIdx b := by
  unfold removeExactly
  rw [List.enum_cons', List.filter_cons, if_neg (by simp), List.filter_map]
  have hcomp : ((fun p : Nat × Int => decide (p.1 ≠ 0 ∧ p.1 ≠ b + 1)) ∘
      Prod.map (· + 1) id) = (fun p : Nat × Int => decide (p.1 ≠ b)) := by
    funext p; simp [Prod.map]
  rw [hcomp, List.map_map, map_snd_shift, ← eraseIdx_eq_enum_filter]

theorem removeExactly_succ_zero (x : Int) (xs : List Int) (a : Nat) :
    removeExactly (x :: xs) (a + 1) 0 = xs.eraseIdx a := by
  unfold removeExactly
  rw [List.enum_cons', List.filter_cons, if_neg (by simp), List.filter_map]
  have hcomp : ((fun p : Nat × Int => decide (p.1 ≠ a + 1 ∧ p.1 ≠ 0)) ∘
      Prod.map (· + 1) id) = (fun p : Nat × Int => decide (p.1 ≠ a)) := by
    funext p; simp [Prod.map]
  rw [hcomp, List.map_map, map_snd_shift, ← eraseIdx_eq_enum_filter]

theorem removeExactly_succ_succ (x : Int) (xs : List Int) (a b : Nat) :
    removeExactly (x :: xs) (a + 1) (b + 1) = x :: removeExactly xs a b := by
  unfold removeExactly
  rw [List.enum_cons', List.filter_cons, if_pos (by simp), List.filter_map]
  have hcomp : ((fun p : Nat × Int => decide (p.1 ≠ a + 1 ∧ p.1 ≠ b + 1)) ∘
      Prod.map (· + 1) id) = (fun p : Nat × Int => decide (p.1 ≠ a ∧ p.1 ≠ b)) := by
    funext p; simp [Prod.map]
  rw [hcomp, List.map_cons, List.map_map, map_snd_shift]

theorem delTwo?_cons_succ (x : Int) (xs : List Int) (a b : Nat) :
    delTwo? (x :: xs) (a + 1) (b + 1) = (delTwo? xs a b).map (fun l => x :: l) := by
  unfold delTwo?
  simp only [delIdx?, Option.bind_eq_bind, Option.map_bind, Option.bind_map]
  cases h : delIdx? xs a with
  | none => rfl
  | some l1 =>
    simp only [Option.map_some, Option.some_bind, Option.bind_some]
    have harith : (if a + 1 < b + 1 then b + 1 - 1 else b + 1) =
        (if a < b then b - 1 else b) + 1 := by
      by_cases hab : a < b
      · simp [hab]; omega
      · simp [hab]
    rw [harith]
    simp [delIdx?]

/-- C5: for every self-loop fold at distinct in-range port indices `ia` and
`ib`, the index-shifted double deletion performed by `connect_circuit`
(`del nets[ia]` then `del nets[ib-1]` if `ia < ib` else `del nets[ib]`)
removes exactly the elements at positions `ia` and `ib` and keeps every
other element in order, whether `ia < ib` or `ib < ia`. -/
theorem self_loop_deletes_exactly_the_two_ports (l : List Int) (ia ib : Nat)
    (hne : ia ≠ ib) (hia : ia < l.length) (hib : ib < l.length) :
    delTwo? l ia ib = some (removeExactly l ia ib) := by
  induction l generalizing ia ib with
  | nil => simp at hia
  | cons x xs ih =>
    match ia, ib with
    | 0, 0 => exact absurd rfl hne
    | 0, b + 1 =>
      have hb : b < xs.length := by simpa using hib
      unfold delTwo?
      have h0 : delIdx? (x :: xs) 0 = some xs := rfl
      rw [h0]
      simp only [Option.bind_eq_bind, Option.some_bind]
      rw [if_pos (Nat.succ_pos b), Nat.add_sub_cancel, delIdx?_of_lt hb,
        removeExactly_zero_succ]
    | a + 1, 0 =>
      have ha : a < xs.length := by simpa using hia
      unfold delTwo?
      rw [show delIdx? (x :: xs) (a + 1) = (delIdx? xs a).map (fun l => x :: l) from rfl,
        delIdx?_of_lt ha]
      simp only [Option.map_some', Option.bind_eq_bind, Option.some_bind]
      rw [if_neg (by omega)]
      rw [show delIdx? (x :: xs.eraseIdx a) 0 = some (xs.eraseIdx a) from rfl,
        removeExactly_succ_zero]
    | a + 1, b + 1 =>
      have ha : a < xs.length := by simpa using hia
      have hb : b < xs.length := by simpa using hib
      have hab : a ≠ b := by omega
      rw [delTwo?_cons_succ, ih a b hab ha hb, removeExactly_succ_succ]
      rfl

/-! ### Disconnected sub-circuits: only the first terminal entry is returned -/

/-- C1 (amended): a netlist of two components sharing no net id cascades to
a working set of TWO terminal entries, each containing only external
(negative) net ids — but `connect_circuit` returns only the first of them
(`component_list[0]`) together with the external-component list; in
general, whatever terminal working set the loop produces, only its head
entry is returned. -/
theorem disconnected_subcircuits_return_first_entry_only (x y : Int)
    (f1 f2 : List ℚ) (s1 s2 : Nat) (hx : x < 0) (hy : y < 0) :
    connectCircuitEntries ⟨[⟨[0, 0, x], f1, s1⟩, ⟨[1, 1, y], f2, s2⟩], 1⟩ =
      some [⟨[x], f1, innerconnect_s_dim s1⟩, ⟨[y], f2, innerconnect_s_dim s2⟩] ∧
    connect_circuit ⟨[⟨[0, 0, x], f1, s1⟩, ⟨[1, 1, y], f2, s2⟩], 1⟩ =
      some (⟨[x], f1, innerconnect_s_dim s1⟩,
        [⟨[0, 0, x], f1, s1⟩, ⟨[1, 1, y], f2, s2⟩]) ∧
    (∀ v ∈ ([x] : List Int), v < 0) ∧ (∀ v ∈ ([y] : List Int), v < 0) ∧
    (∀ (nl : ObjectModelNetlist) (e : ComponentSimulation)
        (es' : List ComponentSimulation),
      connectCircuitEntries nl = some (e :: es') →
      connect_circuit nl = some (e, nl.get_external_components)) := by
  have hx0 : ¬ (x = 0) := by omega
  have h0x : ¬ ((0 : Int) = x) := by omega
  have hx1 : ¬ (x = 1) := by omega
  have h1x : ¬ ((1 : Int) = x) := by omega
  have hy0 : ¬ (y = 0) := by omega
  have h0y : ¬ ((0 : Int) = y) := by omega
  have hy1 : ¬ (y = 1) := by omega
  have h1y : ¬ ((1 : Int) = y) := by omega
  have hids : cascadeIds ⟨[⟨[0, 0, x], f1, s1⟩, ⟨[1, 1, y], f2, s2⟩], 1⟩ = [0, 1] := rfl
  have hentries : connectCircuitEntries ⟨[⟨[0, 0, x], f1, s1⟩, ⟨[1, 1, y], f2, s2⟩], 1⟩ =
      some [⟨[x], f1, innerconnect_s_dim s1⟩, ⟨[y], f2, innerconnect_s_dim s2⟩] := by
    simp only [connectCircuitEntries]
    rw [if_neg (by decide), hids]
    simp [cascade, connectStep, matchPorts, hitIdxs, occIdxs, netIdxs, dupIfSingle,
      pick4, delTwo?, delIdx?, ComponentSimulation.ofComponent,
      hx0, h0x, hx1, h1x, hy0, h0y, hy1, h1y]
  refine ⟨hentries, ?_, by simpa using hx, by simpa using hy, ?_⟩
  · simp [connect_circuit, hentries, ObjectModelNetlist.get_external_components, hx, hy]
  · intro nl e es' h
    simp [connect_circuit, h]

/-- Witness for C1 at concrete external ids and payloads. -/
theorem disconnected_subcircuits_return_first_entry_only_witness :
    connectCircuitEntries ⟨[⟨[0, 0, -1], [], 2⟩, ⟨[1, 1, -2], [], 2⟩], 1⟩ =
      some [⟨[-1], [], innerconnect_s_dim 2⟩, ⟨[-2], [], innerconnect_s_dim 2⟩] ∧
    connect_circuit ⟨[⟨[0, 0, -1], [], 2⟩, ⟨[1, 1, -2], [], 2⟩], 1⟩ =
      some (⟨[-1], [], innerconnect_s_dim 2⟩,
        [⟨[0, 0, -1], [], 2⟩, ⟨[1, 1, -2], [], 2⟩]) :=
  ⟨((disconnected_subcircuits_return_first_entry_only (-1) (-2) [] [] 2 2
      (by decide) (by decide))).1,
    ((disconnected_subcircuits_return_first_entry_only (-1) (-2) [] [] 2 2
      (by decide) (by decide))).2.1⟩

/-- Counterexample to C1 as stated: on a concrete netlist of two components
sharing no net id the loop leaves two terminal entries, but the returned
value holds only the first of them (together with the external-component
list); the second terminal entry is not part of the result. -/
theorem disconnected_subcircuits_counterexample :
    connectCircuitEntries ⟨[⟨[0, 0, -1], [], 2⟩, ⟨[1, 1, -2], [], 2⟩], 1⟩ =
      some [⟨[-1], [], 0⟩, ⟨[-2], [], 0⟩] ∧
    connect_circuit ⟨[⟨[0, 0, -1], [], 2⟩, ⟨[1, 1, -2], [], 2⟩], 1⟩ =
      some (⟨[-1], [], 0⟩, [⟨[0, 0, -1], [], 2⟩, ⟨[1, 1, -2], [], 2⟩]) ∧
    (⟨[-1], [], 0⟩ : ComponentSimulation) ≠ ⟨[-2], [], 0⟩ := by
  decide

/-! ### The driver's net id enumeration -/

/-- C3 (amended): the driver loop `for n in range(0, net_count + 1)`
enumerates each net id exactly once in strictly increasing order, but the
ids it looks up are `0` through `net_count` INCLUSIVE — one more than the
set `{0 .. net_count-1}`. -/
theorem cascade_ids_cover_zero_through_net_count (nl : ObjectModelNetlist)
    (h : 0 < nl.net_count) :
    (cascadeIds nl).Pairwise (· < ·) ∧
    ∀ k : Int, k ∈ cascadeIds nl ↔ 0 ≤ k ∧ k ≤ nl.net_count := by
  unfold cascadeIds pyRange
  constructor
  · exact (List.pairwise_lt_range _).map _ (fun a b hab => by omega)
  · intro k
    simp only [List.mem_map, List.mem_range]
    constructor
    · rintro ⟨i, hi, rfl⟩
      omega
    · rintro ⟨h0, hle⟩
      exact ⟨k.toNat, by omega, by omega⟩

/-- Witness for C3 on a concrete netlist with `net_count = 2`. -/
theorem cascade_ids_cover_zero_through_net_count_witness :
    (cascadeIds ⟨[], 2⟩).Pairwise (· < ·) ∧
    ∀ k : Int, k ∈ cascadeIds ⟨[], 2⟩ ↔ 0 ≤ k ∧ k ≤ (2 : Int) :=
  cascade_ids_cover_zero_through_net_count ⟨[], 2⟩ (by decide)

/-- Counterexample to C3 as stated: on a concrete netlist with
`net_count = 1` the driver enumerates `[0, 1]`, so id `1 = net_count`,
outside `{0 .. net_count-1}`, is looked up — and its step is genuinely
executed: the run folds net 1 and completes. -/
theorem cascade_ids_counterexample :
    (⟨[⟨[0, -1], [1], 2⟩, ⟨[0, 1], [2], 2⟩, ⟨[1, -2], [3], 2⟩], 1⟩ :
        ObjectModelNetlist).net_count = 1 ∧
    cascadeIds ⟨[⟨[0, -1], [1], 2⟩, ⟨[0, 1], [2], 2⟩, ⟨[1, -2], [3], 2⟩], 1⟩ = [0, 1] ∧
    ¬ ((1 : Int) ≤ 1 - 1) ∧
    connect_circuit ⟨[⟨[0, -1], [1], 2⟩, ⟨[0, 1], [2], 2⟩, ⟨[1, -2], [3], 2⟩], 1⟩ =
      some (⟨[-2, -1], [3], 2⟩, [⟨[0, -1], [1], 2⟩, ⟨[1, -2], [3], 2⟩]) := by
  decide

/-! ### Occurrence counting and the port matcher -/

theorem occIdxs_length (a : Int) (l : List Int) :
    (occIdxs a l).length = l.count a := by
  induction l with
  | nil => rfl
  | cons x xs ih =>
    by_cases h : x = a
    · simp [occIdxs, h, ih, List.count_cons]
    · simp [occIdxs, h, ih, List.count_cons, Ne.symm h]

theorem netIdxs_length (n : Int) (es : List ComponentSimulation) :
    (netIdxs n es).length = occCount n es := by
  induction es with
  | nil => rfl
  | cons e es ih =>
    by_cases h : n ∈ e.nets
    · unfold netIdxs occCount
      rw [List.filter_cons, if_pos (by simpa using h)]
      simp only [List.flatMap_cons, List.length_append, occIdxs_length,
        List.map_cons, List.sum_cons]
      exact congrArg (fun t => e.nets.count n + t) ih
    · unfold netIdxs occCount
      rw [List.filter_cons, if_neg (by simpa using h)]
      simp only [List.map_cons, List.sum_cons, List.count_eq_zero.mpr h, Nat.zero_add]
      exact ih

theorem hitIdxs_eq_nil_iff (n : Int) (es : List ComponentSimulation) :
    hitIdxs n es = [] ↔ ∀ e ∈ es, n ∉ e.nets := by
  induction es with
  | nil => simp [hitIdxs]
  | cons e es ih =>
    by_cases h : n ∈ e.nets
    · simp [hitIdxs, h]
    · simp [hitIdxs, h, ih]

theorem pick4_eq_none_iff (c ni : List Nat) :
    pick4 c ni = none ↔ c.length ≤ 1 ∨ ni.length ≤ 1 := by
  rcases c with _ | ⟨ca, _ | ⟨cb, t⟩⟩ <;>
    rcases ni with _ | ⟨ia, _ | ⟨ib, t'⟩⟩ <;> simp [pick4]

theorem matchPorts_eq_none_iff (n : Int) (es : List ComponentSimulation) :
    matchPorts n es = none ↔ occCount n es ≤ 1 := by
  rw [matchPorts, pick4_eq_none_iff, netIdxs_length]
  constructor
  · rintro (h | h)
    · -- comp_idx (after the duplication step) has at most one element:
      -- then no entry holds the net id at all, so there are 0 occurrences.
      have hnil : hitIdxs n es = [] := by
        by_contra hne
        rcases List.exists_cons_of_ne_nil hne with ⟨a, t, ht⟩
        unfold dupIfSingle at h
        rw [ht] at h
        rcases t with _ | ⟨b, t'⟩ <;> simp at h
      have hocc : occCount n es = 0 := by
        rw [hitIdxs_eq_nil_iff] at hnil
        unfold occCount
        rw [List.sum_eq_zero]
        intro x hx
        rcases List.mem_map.mp hx with ⟨e, he, rfl⟩
        exact List.count_eq_zero.mpr (hnil e he)
      omega
    · exact h
  · exact Or.inr

/-- C2 (amended): the occurrence-count behaviour of one cascade step.  At
most one occurrence of the target id (zero included) makes `_match_ports`
raise, aborting the step — the zero case is not skipped; two or more
occurrences always produce a match (fan-out above two is not rejected);
and an aborted step aborts the remaining cascade with no partial result. -/
theorem match_ports_occurrence_behaviour (n : Int) (es : List ComponentSimulation) :
    (occCount n es ≤ 1 → matchPorts n es = none ∧ connectStep es n = none) ∧
    (2 ≤ occCount n es → matchPorts n es ≠ none) ∧
    (∀ ids : List Int, connectStep es n = none → cascade (n :: ids) es = none) := by
  refine ⟨fun h => ?_, fun h => ?_, fun ids h => ?_⟩
  · have hm : matchPorts n es = none := (matchPorts_eq_none_iff n es).mpr h
    exact ⟨hm, by simp [connectStep, hm]⟩
  · intro hm
    have := (matchPorts_eq_none_iff n es).mp hm
    omega
  · simp [cascade, List.foldlM_cons, h]

/-- Witness for C2 on concrete inputs: a single occurrence aborts, and
three occurrences in one entry still produce a match. -/
theorem match_ports_occurrence_behaviour_witness :
    (matchPorts 0 [⟨[0, -1], [], 2⟩] = none ∧
      connectStep [⟨[0, -1], [], 2⟩] 0 = none) ∧
    matchPorts 0 [⟨[0, 0, 0, -1], [], 4⟩] ≠ none :=
  ⟨(match_ports_occurrence_behaviour 0 [⟨[0, -1], [], 2⟩]).1 (by decide),
    (match_ports_occurrence_behaviour 0 [⟨[0, 0, 0, -1], [], 4⟩]).2.1 (by decide)⟩

/-- Counterexample to C2 as stated: with zero occurrences the step aborts
the cascade (it is not skipped with the working set left unchanged), and
with three occurrences the step proceeds to a fold instead of aborting. -/
theorem match_ports_occurrence_counterexample :
    (occCount 0 [⟨[5, -1], [], 2⟩] = 0 ∧
      connectStep [⟨[5, -1], [], 2⟩] 0 = none ∧
      cascade [0] [⟨[5, -1], [], 2⟩] = none) ∧
    (occCount 0 [⟨[0, 0, 0, -1], [], 4⟩] = 3 ∧
      connectStep [⟨[0, 0, 0, -1], [], 4⟩] 0 = some [⟨[0, -1], [], 2⟩]) := by
  decide

/-! ### net_count: the property and the parser counter -/

/-- Convenience: the characterization of `List.max?` on integers. -/
theorem int_max?_eq_some_iff {l : List Int} {a : Int} :
    l.max? = some a ↔ a ∈ l ∧ ∀ b ∈ l, b ≤ a := by
  haveI : Std.Antisymm (fun (x y : Int) => x ≤ y) :=
    ⟨fun {a b} h1 h2 => Int.le_antisymm h1 h2⟩
  exact List.max?_eq_some_iff Int.le_refl (fun x y => max_choice x y)
    (fun x y z => max_le_iff)

/-- C6 (amended): the `Netlist.net_count` property returns the maximum over
ALL net ids plus one — equal to `max(internal ids) + 1` whenever an
internal (non-negative) id exists — and fails (`none`) on an empty netlist;
but the `net_count` counter maintained by `ObjectModelNetlist._parse_line`
is `max(0, max net id)` — the maximum internal id itself, NOT `max + 1`. -/
theorem net_count_property_and_parser_counter :
    (∀ (nl : Netlist) (v : Int),
      (((nl.components.map (fun c => c.nets)).flatten).filter
          (fun w => decide (0 ≤ w))).max? = some v →
      Netlist.net_count nl = some (v + 1)) ∧
    (∀ nl : Netlist, nl.components = [] → Netlist.net_count nl = none) ∧
    (∀ (cnt : Int) (nets : List Int),
      cnt ≤ parse_line_net_count cnt nets ∧
      (∀ v ∈ nets, v ≤ parse_line_net_count cnt nets) ∧
      (parse_line_net_count cnt nets = cnt ∨ parse_line_net_count cnt nets ∈ nets)) := by
  refine ⟨fun nl v hv => ?_, fun nl h => by simp [Netlist.net_count, h], ?_⟩
  · rw [int_max?_eq_some_iff] at hv
    obtain ⟨hmem, hub⟩ := hv
    have hmem' : v ∈ (nl.components.map (fun c => c.nets)).flatten := by
      exact List.mem_of_mem_filter hmem
    have hub' : ∀ b ∈ (nl.components.map (fun c => c.nets)).flatten, b ≤ v := by
      intro b hb
      by_cases hbs : 0 ≤ b
      · exact hub b (List.mem_filter.mpr ⟨hb, by simpa using hbs⟩)
      · have h0v : 0 ≤ v := by
          have := List.mem_filter.mp hmem
          simpa using this.2
        omega
    unfold Netlist.net_count
    rw [int_max?_eq_some_iff.mpr ⟨hmem', hub'⟩]
    rfl
  · intro cnt nets
    induction nets generalizing cnt with
    | nil => simp [parse_line_net_count]
    | cons v vs ih =>
      have hstep : parse_line_net_count cnt (v :: vs) =
          parse_line_net_count (if cnt < v then v else cnt) vs := rfl
      by_cases h : cnt < v
      · obtain ⟨h1, h2, h3⟩ := ih v
        rw [hstep, if_pos h]
        refine ⟨by omega, ?_, ?_⟩
        · intro w hw
          rcases List.mem_cons.mp hw with rfl | hw
          · exact h1
          · exact h2 w hw
        · rcases h3 with h3 | h3
          · exact Or.inr (by rw [h3]; exact List.mem_cons_self v vs)
          · exact Or.inr (List.mem_cons_of_mem v h3)
      · obtain ⟨h1, h2, h3⟩ := ih cnt
        rw [hstep, if_neg h]
        refine ⟨h1, ?_, ?_⟩
        · intro w hw
          rcases List.mem_cons.mp hw with rfl | hw
          · omega
          · exact h2 w hw
        · rcases h3 with h3 | h3
          · exact Or.inl h3
          · exact Or.inr (List.mem_cons_of_mem v h3)

/-- Witness for C6 on concrete inputs. -/
theorem net_count_property_and_parser_counter_witness :
    Netlist.net_count ⟨[⟨[2, -1], [], 2⟩]⟩ = some 3 ∧
    Netlist.net_count ⟨[]⟩ = none ∧
    ((0 : Int) ≤ parse_line_net_count 0 [2, -1] ∧
      (∀ v ∈ ([2, -1] : List Int), v ≤ parse_line_net_count 0 [2, -1]) ∧
      (parse_line_net_count 0 [2, -1] = 0 ∨
        parse_line_net_count 0 [2, -1] ∈ ([2, -1] : List Int))) :=
  ⟨net_count_property_and_parser_counter.1 ⟨[⟨[2, -1], [], 2⟩]⟩ 2 (by decide),
    net_count_property_and_parser_counter.2.1 ⟨[]⟩ rfl,
    net_count_property_and_parser_counter.2.2 0 [2, -1]⟩

/-- Counterexample to C6 as stated: on the single-component netlist with
nets `[2, -1]` the parser counter ends at `2` (the maximum internal id),
whereas `max(internal ids) + 1 = 3`, the value of the `Netlist.net_count`
property. -/
theorem parser_counter_counterexample :
    parse_line_net_count 0 [2, -1] = 2 ∧
    Netlist.net_count ⟨[⟨[2, -1], [], 2⟩]⟩ = some 3 ∧ (2 : Int) ≠ 3 := by
  decide

/-! ### The cross-merge fold -/

theorem totalPorts_eraseIdx (es : List ComponentSimulation) (i : Nat)
    (A : ComponentSimulation) (h : es[i]? = some A) :
    totalPorts (es.eraseIdx i) + A.nets.length = totalPorts es := by
  induction es generalizing i with
  | nil => simp at h
  | cons e es ih =>
    cases i with
    | zero =>
      simp only [List.getElem?_cons_zero, Option.some.injEq] at h
      subst h
      simp only [List.eraseIdx_zero, List.tail_cons, totalPorts, List.map_cons,
        List.sum_cons]
      omega
    | succ k =>
      simp only [List.getElem?_cons_succ] at h
      have := ih k h
      simp only [List.eraseIdx_cons_succ, totalPorts, List.map_cons, List.sum_cons]
      simp only [totalPorts] at this
      omega

/-- C4 (amended): a cross-merge fold of the two distinct entries matched on
a net id removes the matched port from each side and concatenates the
remainders in order, removes both source entries and appends the single
combination, shrinks the total port count by exactly 2 and the working-set
size by exactly 1; the combination's frequency vector is taken from the
FIRST entry of the working list (`component_list[0].f`), which agrees with
the folded entries' vectors whenever every working entry shares one.
(`_match_ports` always reports the lower entry index first, so `ca < cb`
covers every reachable cross-merge.) -/
theorem cross_merge_fold (es : List ComponentSimulation) (n : Int)
    (ca ia cb ib : Nat) (A B E0 : ComponentSimulation)
    (hm : matchPorts n es = some (ca, ia, cb, ib)) (hlt : ca < cb)
    (hA : es[ca]? = some A) (hB : es[cb]? = some B) (h0 : es.head? = some E0)
    (hia : ia < A.nets.length) (hib : ib < B.nets.length) :
    ∃ res,
      connectStep es n = some res ∧
      res = (es.eraseIdx ca).eraseIdx (cb - 1) ++
        [{ nets := A.nets.eraseIdx ia ++ B.nets.eraseIdx ib, f := E0.f,
           s := connect_s_dim A.s B.s }] ∧
      totalPorts res + 2 = totalPorts es ∧
      res.length + 1 = es.length ∧
      E0 ∈ es ∧ ((∀ e ∈ es, e.f = A.f) → E0.f = A.f) := by
  have hca : ca < es.length := (List.getElem?_eq_some_iff.mp hA).1
  have hcb : cb < es.length := (List.getElem?_eq_some_iff.mp hB).1
  have hne : ¬ ca = cb := Nat.ne_of_lt hlt
  have hlen1 : (es.eraseIdx ca).length = es.length - 1 :=
    List.length_eraseIdx_of_lt hca
  have hcb1 : cb - 1 < (es.eraseIdx ca).length := by omega
  have hB' : (es.eraseIdx ca)[cb - 1]? = some B := by
    rw [List.getElem?_eraseIdx_of_ge es ca (cb - 1) (by omega),
      Nat.sub_add_cancel (by omega)]
    exact hB
  refine ⟨_, ?_, rfl, ?_, ?_, List.mem_of_mem_head? h0, fun hall => hall E0 (List.mem_of_mem_head? h0)⟩
  · simp only [connectStep, hm, Option.bind_eq_bind, Option.some_bind]
    rw [if_neg hne]
    simp only [hA, hB, h0, Option.some_bind, delIdx?_of_lt hia, delIdx?_of_lt hib,
      delIdx?_of_lt hca]
    rw [if_pos hlt]
    simp [delIdx?_of_lt hcb1]
  · have h1 : totalPorts (es.eraseIdx ca) + A.nets.length = totalPorts es :=
      totalPorts_eraseIdx es ca A hA
    have h2 : totalPorts ((es.eraseIdx ca).eraseIdx (cb - 1)) + B.nets.length =
        totalPorts (es.eraseIdx ca) :=
      totalPorts_eraseIdx (es.eraseIdx ca) (cb - 1) B hB'
    have hApos : 1 ≤ A.nets.length := by omega
    have hBpos : 1 ≤ B.nets.length := by omega
    have hlA : (A.nets.eraseIdx ia).length = A.nets.length - 1 :=
      List.length_eraseIdx_of_lt hia
    have hlB : (B.nets.eraseIdx ib).length = B.nets.length - 1 :=
      List.length_eraseIdx_of_lt hib
    simp only [totalPorts, List.map_append, List.sum_append, List.map_cons,
      List.sum_cons, List.map_nil, List.sum_nil, List.length_append, hlA, hlB]
    simp only [totalPorts] at h1 h2
    omega
  · have hlen2 : ((es.eraseIdx ca).eraseIdx (cb - 1)).length =
        (es.eraseIdx ca).length - 1 := List.length_eraseIdx_of_lt hcb1
    simp only [List.length_append, List.length_cons, List.length_nil]
    omega

/-- Witness for C4: folding two two-port entries through net 0 produces the
predicted single combination entry. -/
theorem cross_merge_fold_witness :
    connectStep [⟨[0, -1], [1], 2⟩, ⟨[0, -2], [1], 2⟩] 0 =
      some [⟨[-1, -2], [1], 2⟩] := by
  obtain ⟨res, hstep, hres, -⟩ :=
    cross_merge_fold [⟨[0, -1], [1], 2⟩, ⟨[0, -2], [1], 2⟩] 0 0 0 1 0
      ⟨[0, -1], [1], 2⟩ ⟨[0, -2], [1], 2⟩ ⟨[0, -1], [1], 2⟩
      (by decide) (by decide) (by decide) (by decide) (by decide)
      (by decide) (by decide)
  rw [hstep, hres]
  decide

/-- Counterexample to C4 as stated: when the first working entry is not one
of the two folded entries, the combination carries the first entry's
frequency vector, not the folded entries' (unchanged) vector. -/
theorem cross_merge_frequency_counterexample :
    connectStep [⟨[-5], [7], 1⟩, ⟨[0, -1], [2], 2⟩, ⟨[0, -2], [2], 2⟩] 0 =
      some [⟨[-5], [7], 1⟩, ⟨[-1, -2], [7], 2⟩] ∧
    ([7] : List ℚ) ≠ [2] := by
  decide

/-! ### The cascade never inspects frequency vectors -/

/-- Rewrites an entry's frequency vector, leaving nets and matrix alone. -/
def mapF (g : List ℚ → List ℚ) (e : ComponentSimulation) : ComponentSimulation :=
  { e with f := g e.f }

theorem delIdx?_map {α β : Type} (h : α → β) (l : List α) (i : Nat) :
    delIdx? (l.map h) i = (delIdx? l i).map (List.map h) := by
  induction l generalizing i with
  | nil => rfl
  | cons x xs ih =>
    cases i with
    | zero => rfl
    | succ n =>
      simp only [List.map_cons, delIdx?, ih]
      cases delIdx? xs n <;> rfl

theorem hitIdxs_map_mapF (g : List ℚ → List ℚ) (n : Int)
    (es : List ComponentSimulation) :
    hitIdxs n (es.map (mapF g)) = hitIdxs n es := by
  induction es with
  | nil => rfl
  | cons e es ih =>
    have hnets : (mapF g e).nets = e.nets := rfl
    by_cases h : n ∈ e.nets
    · simp [hitIdxs, hnets, h, ih]
    · simp [hitIdxs, hnets, h, ih]

theorem netIdxs_map_mapF (g : List ℚ → List ℚ) (n : Int)
    (es : List ComponentSimulation) :
    netIdxs n (es.map (mapF g)) = netIdxs n es := by
  induction es with
  | nil => rfl
  | cons e es ih =>
    have hnets : (mapF g e).nets = e.nets := rfl
    simp only [netIdxs] at ih
    by_cases h : n ∈ e.nets
    · simp only [netIdxs, List.map_cons, List.filter_cons, hnets]
      simp [h, ih, hnets]
    · simp only [netIdxs, List.map_cons, List.filter_cons, hnets]
      simp [h, ih, hnets]

theorem matchPorts_map_mapF (g : List ℚ → List ℚ) (n : Int)
    (es : List ComponentSimulation) :
    matchPorts n (es.map (mapF g)) = matchPorts n es := by
  rw [matchPorts, matchPorts, hitIdxs_map_mapF, netIdxs_map_mapF]

theorem connectStep_map_mapF (g : List ℚ → List ℚ)
    (es : List ComponentSimulation) (n : Int) :
    connectStep (es.map (mapF g)) n = (connectStep es n).map (List.map (mapF g)) := by
  cases hm : matchPorts n es with
  | none => simp [connectStep, matchPorts_map_mapF g, hm]
  | some q =>
    obtain ⟨ca, ia, cb, ib⟩ := q
    simp only [connectStep, matchPorts_map_mapF g, hm, Option.bind_eq_bind,
      Option.some_bind]
    by_cases hc : ca = cb
    · rw [if_pos hc, if_pos hc]
      cases hA : es[ca]? with
      | none => simp [hA]
      | some A =>
        simp only [List.getElem?_map, hA, Option.map_some', Option.some_bind]
        have hnets : (mapF g A).nets = A.nets := rfl
        rw [hnets]
        cases hd : delTwo? A.nets ia ib with
        | none => simp
        | some nets' =>
          simp only [Option.some_bind, Option.map_some']
          show some ((es.map (mapF g)).set ca
              (mapF g { A with s := innerconnect_s_dim A.s, nets := nets' })) =
            some ((es.set ca
              { A with s := innerconnect_s_dim A.s, nets := nets' }).map (mapF g))
          rw [← List.map_set]
    · rw [if_neg hc, if_neg hc]
      cases hA : es[ca]? with
      | none => simp [hA]
      | some A =>
        cases hB : es[cb]? with
        | none => simp [hA, hB]
        | some B =>
          cases h0 : es.head? with
          | none => simp [hA, hB, h0]
          | some E0 =>
            simp only [List.getElem?_map, List.head?_map, hA, hB, h0,
              Option.map_some', Option.some_bind]
            have hnA : (mapF g A).nets = A.nets := rfl
            have hnB : (mapF g B).nets = B.nets := rfl
            rw [hnA, hnB]
            cases hdA : delIdx? A.nets ia with
            | none => simp
            | some netsA =>
              cases hdB : delIdx? B.nets ib with
              | none => simp
              | some netsB =>
                simp only [Option.some_bind, delIdx?_map]
                cases hd1 : delIdx? es ca with
                | none => simp
                | some l1 =>
                  simp only [Option.map_some', Option.some_bind, delIdx?_map]
                  cases hd2 : delIdx? l1 (if ca < cb then cb - 1 else cb) with
                  | none => simp
                  | some l2 =>
                    simp only [Option.map_some', Option.some_bind,
                      List.map_append, List.map_cons, List.map_nil]
                    rfl

/-- C7 (amended): the cascade applies no frequency-grid comparison at all.
Arbitrarily rewriting every entry's frequency vector commutes with the
whole cascade: control flow, net lists and matrix dimensions are unchanged,
and each fold's frequency vector is simply copied from the first working
entry.  In particular a cascade over mismatched frequency vectors is never
rejected. -/
theorem cascade_never_inspects_frequency (g : List ℚ → List ℚ) (ids : List Int)
    (es : List ComponentSimulation) :
    cascade ids (es.map (mapF g)) = (cascade ids es).map (List.map (mapF g)) := by
  induction ids generalizing es with
  | nil => rfl
  | cons i ids ih =>
    simp only [cascade, List.foldlM_cons]
    cases hs : connectStep es i with
    | none =>
      have : connectStep (es.map (mapF g)) i = none := by
        rw [connectStep_map_mapF, hs]; rfl
      simp [this, hs]
    | some es' =>
      have : connectStep (es.map (mapF g)) i = some (es'.map (mapF g)) := by
        rw [connectStep_map_mapF, hs]; rfl
      simp only [this, hs, Option.some_bind]
      exact ih es'

/-- Counterexample to C7 as stated: a cascade over three entries with three
pairwise different frequency vectors completes and returns a composite
matrix instead of failing; the mismatched grids are silently absorbed (the
result carries the frequency vector of whatever entry happened to be first). -/
theorem mismatched_frequency_counterexample :
    connect_circuit ⟨[⟨[0, -1], [1], 2⟩, ⟨[0, 1], [2], 2⟩, ⟨[1, -2], [3], 2⟩], 1⟩ =
      some (⟨[-2, -1], [3], 2⟩, [⟨[0, -1], [1], 2⟩, ⟨[1, -2], [3], 2⟩]) ∧
    ([1] : List ℚ) ≠ [2] ∧ ([2] : List ℚ) ≠ [3] := by
  decide

/-- Witness for C5 at a concrete input with `ib < ia`. -/
theorem self_loop_deletes_exactly_the_two_ports_witness :
    delTwo? [10, 20, 30, 40] 2 0 = some (removeExactly [10, 20, 30, 40] 2 0) :=
  self_loop_deletes_exactly_the_two_ports [10, 20, 30, 40] 2 0
    (by decide) (by decide) (by decide)

/-! ### Heap-indexed rendering of the engine (aliasing made explicit) -/

/-- Heap of net-list cells; a reference is a position in this store. -/
abbrev Heap := List (List Int)

/-- Dereferences a cell (always valid in reachable states). -/
def netsOf (h : Heap) (r : Nat) : List Int := (h[r]?).getD []

/-- Allocates a fresh cell holding `v` and returns its reference. -/
def alloc (h : Heap) (v : List Int) : Nat × Heap := (h.length, h ++ [v])

/-- Component instance whose net list lives in a heap cell. -/
structure HComponentInstance where
  netsRef : Nat
  f : List ℚ
  s : Nat
  deriving DecidableEq, Repr

/-- Working simulation entry whose net list lives in a heap cell. -/
structure HComponentSimulation where
  netsRef : Nat
  f : List ℚ
  s : Nat
  deriving DecidableEq, Repr

/-- Heap-level `ObjectModelNetlist`. -/
structure HObjectModelNetlist where
  component_list : List HComponentInstance
  net_count : Int
  deriving DecidableEq, Repr

/-- `ComponentSimulation.__init__(component)` at heap level: the
`copy.deepcopy(component.nets)` reads the component's cell and allocates a
FRESH cell for the working entry. -/
def simOfComponentH (h : Heap) (c : HComponentInstance) :
    HComponentSimulation × Heap :=
  let p := alloc h (netsOf h c.netsRef)
  (⟨p.1, c.f, c.s⟩, p.2)

/-- Builds one working entry per component, left to right. -/
def initEntriesH (h : Heap) : List HComponentInstance →
    List HComponentSimulation × Heap
  | [] => ([], h)
  | c :: cs =>
    let p := simOfComponentH h c
    let q := initEntriesH p.2 cs
    (p.1 :: q.1, q.2)

/-- Heap-level `comp_idx` scan. -/
def hitIdxsH (h : Heap) (netId : Int) : List HComponentSimulation → List Nat
  | [] => []
  | e :: es =>
    if netId ∈ netsOf h e.netsRef then 0 :: (hitIdxsH h netId es).map (fun i => i + 1)
    else (hitIdxsH h netId es).map (fun i => i + 1)

/-- Heap-level `net_idx` scan. -/
def netIdxsH (h : Heap) (netId : Int) (es : List HComponentSimulation) : List Nat :=
  (es.filter (fun e => decide (netId ∈ netsOf h e.netsRef))).flatMap
    (fun e => occIdxs netId (netsOf h e.netsRef))

/-- Heap-level `_match_ports`. -/
def matchPortsH (h : Heap) (netId : Int) (es : List HComponentSimulation) :
    Option (Nat × Nat × Nat × Nat) :=
  pick4 (dupIfSingle (hitIdxsH h netId es)) (netIdxsH h netId es)

/-- Heap-level cascade step: in-place deletions write to the cell owned by
the affected entry (`del component_list[ca].nets[ia]` mutates the list
object); the cross-merge concatenation allocates a fresh cell. -/
def connectStepH (h : Heap) (es : List HComponentSimulation) (n : Int) :
    Option (Heap × List HComponentSimulation) := do
  let (ca, ia, cb, ib) ← matchPortsH h n es
  if ca = cb then do
    let A ← es[ca]?
    let nets' ← delTwo? (netsOf h A.netsRef) ia ib
    some (h.set A.netsRef nets', es.set ca { A with s := innerconnect_s_dim A.s })
  else do
    let A ← es[ca]?
    let B ← es[cb]?
    let first ← es.head?
    let netsA ← delIdx? (netsOf h A.netsRef) ia
    let netsB ← delIdx? (netsOf h B.netsRef) ib
    let h1 := (h.set A.netsRef netsA).set B.netsRef netsB
    let p := alloc h1 (netsA ++ netsB)
    let combination : HComponentSimulation := ⟨p.1, first.f, connect_s_dim A.s B.s⟩
    let l1 ← delIdx? es ca
    let l2 ← delIdx? l1 (if ca < cb then cb - 1 else cb)
    some (p.2, l2 ++ [combination])

/-- Heap-level reduction loop. -/
def cascadeH (ids : List Int) (h : Heap) (es : List HComponentSimulation) :
    Option (Heap × List HComponentSimulation) :=
  ids.foldlM (fun p n => connectStepH p.1 p.2 n) (h, es)

/-- Heap-level `connect_circuit`. -/
def connect_circuitH (h : Heap) (nl : HObjectModelNetlist) :
    Option (Heap × HComponentSimulation × List HComponentInstance) :=
  if nl.net_count = 0 then none
  else
    match cascadeH (pyRange 0 (nl.net_count + 1))
        (initEntriesH h nl.component_list).2 (initEntriesH h nl.component_list).1 with
    | none => none
    | some (h2, final) =>
      final.head?.map (fun e =>
        (h2, e, nl.component_list.filter
          (fun c => (netsOf h2 c.netsRef).any (fun x => decide (x < 0)))))

/-! ### Frame property of the heap-level cascade -/

theorem delIdx?_subset {α : Type} {l l' : List α} {i : Nat}
    (h : delIdx? l i = some l') : ∀ a ∈ l', a ∈ l := by
  rw [delIdx?_eq] at h
  by_cases hi : i < l.length
  · rw [if_pos hi] at h
    obtain rfl := Option.some.inj h
    exact fun a ha => List.mem_of_mem_eraseIdx ha
  · rw [if_neg hi] at h
    exact absurd h (by simp)

theorem initEntriesH_spec : ∀ (cs : List HComponentInstance) (h : Heap),
    (∀ j, j < h.length → (initEntriesH h cs).2[j]? = h[j]?) ∧
    h.length ≤ (initEntriesH h cs).2.length ∧
    (∀ e ∈ (initEntriesH h cs).1, h.length ≤ e.netsRef) := by
  intro cs
  induction cs with
  | nil => intro h; exact ⟨fun j hj => rfl, le_refl _, by simp [initEntriesH]⟩
  | cons c cs ih =>
    intro h
    have hstep : initEntriesH h (c :: cs) =
        ((⟨h.length, c.f, c.s⟩ : HComponentSimulation) ::
          (initEntriesH (h ++ [netsOf h c.netsRef]) cs).1,
         (initEntriesH (h ++ [netsOf h c.netsRef]) cs).2) := rfl
    obtain ⟨ih1, ih2, ih3⟩ := ih (h ++ [netsOf h c.netsRef])
    have hlen : h.length ≤ (h ++ [netsOf h c.netsRef]).length := by simp
    rw [hstep]
    refine ⟨fun j hj => ?_, le_trans hlen ih2, fun e he => ?_⟩
    · rw [ih1 j (by simp; omega), List.getElem?_append_left hj]
    · rcases List.mem_cons.mp he with rfl | he
      · exact le_refl _
      · exact le_trans hlen (ih3 e he)

theorem connectStepH_frame (k : Nat) (h : Heap) (es : List HComponentSimulation)
    (n : Int) (h' : Heap) (es' : List HComponentSimulation)
    (hstep : connectStepH h es n = some (h', es'))
    (hkh : k ≤ h.length) (hke : ∀ e ∈ es, k ≤ e.netsRef) :
    (∀ j, j < k → h'[j]? = h[j]?) ∧ k ≤ h'.length ∧ ∀ e ∈ es', k ≤ e.netsRef := by
  unfold connectStepH at hstep
  cases hm : matchPortsH h n es with
  | none => rw [hm] at hstep; exact absurd hstep (by simp)
  | some quad =>
    obtain ⟨ca, ia, cb, ib⟩ := quad
    rw [hm] at hstep
    simp only [Option.bind_eq_bind, Option.some_bind] at hstep
    by_cases hc : ca = cb
    · rw [if_pos hc] at hstep
      cases hA : es[ca]? with
      | none => rw [hA] at hstep; exact absurd hstep (by simp)
      | some A =>
        rw [hA] at hstep
        simp only [Option.some_bind] at hstep
        cases hd : delTwo? (netsOf h A.netsRef) ia ib with
        | none => rw [hd] at hstep; exact absurd hstep (by simp)
        | some nets' =>
          rw [hd] at hstep
          simp only [Option.some_bind, Option.some.injEq, Prod.mk.injEq] at hstep
          obtain ⟨hh, he⟩ := hstep
          subst hh
          subst he
          have hAref : k ≤ A.netsRef := hke A (List.getElem?_mem hA)
          refine ⟨fun j hj => List.getElem?_set_ne (by omega), ?_, fun e he => ?_⟩
          · rw [List.length_set]; exact hkh
          · rcases List.mem_or_eq_of_mem_set he with he | rfl
            · exact hke e he
            · exact hAref
    · rw [if_neg hc] at hstep
      cases hA : es[ca]? with
      | none => rw [hA] at hstep; exact absurd hstep (by simp)
      | some A =>
        rw [hA] at hstep
        cases hB : es[cb]? with
        | none => rw [hB] at hstep; exact absurd hstep (by simp)
        | some B =>
          rw [hB] at hstep
          cases h0 : es.head? with
          | none => rw [h0] at hstep; exact absurd hstep (by simp)
          | some E0 =>
            rw [h0] at hstep
            simp only [Option.some_bind] at hstep
            cases hdA : delIdx? (netsOf h A.netsRef) ia with
            | none => rw [hdA] at hstep; exact absurd hstep (by simp)
            | some netsA =>
              rw [hdA] at hstep
              simp only [Option.some_bind] at hstep
              cases hdB : delIdx? (netsOf h B.netsRef) ib with
              | none => rw [hdB] at hstep; exact absurd hstep (by simp)
              | some netsB =>
                rw [hdB] at hstep
                simp only [Option.some_bind] at hstep
                cases hd1 : delIdx? es ca with
                | none => rw [hd1] at hstep; exact absurd hstep (by simp)
                | some l1 =>
                  rw [hd1] at hstep
                  simp only [Option.some_bind] at hstep
                  cases hd2 : delIdx? l1 (if ca < cb then cb - 1 else cb) with
                  | none => rw [hd2] at hstep; exact absurd hstep (by simp)
                  | some l2 =>
                    rw [hd2] at hstep
                    simp only [Option.some_bind, Option.some.injEq,
                      Prod.mk.injEq] at hstep
                    obtain ⟨hh, he⟩ := hstep
                    subst hh
                    subst he
                    have hAref : k ≤ A.netsRef := hke A (List.getElem?_mem hA)
                    have hBref : k ≤ B.netsRef := hke B (List.getElem?_mem hB)
                    have hlen1 :
                        ((h.set A.netsRef netsA).set B.netsRef netsB).length =
                          h.length := by
                      simp [List.length_set]
                    refine ⟨fun j hj => ?_, ?_, fun e he => ?_⟩
                    · show (((h.set A.netsRef netsA).set B.netsRef netsB) ++
                        [netsA ++ netsB])[j]? = h[j]?
                      rw [List.getElem?_append_left (by omega),
                        List.getElem?_set_ne (by omega),
                        List.getElem?_set_ne (by omega)]
                    · show k ≤ (((h.set A.netsRef netsA).set B.netsRef netsB) ++
                        [netsA ++ netsB]).length
                      simp only [List.length_append, hlen1]
                      omega
                    · rcases List.mem_append.mp he with he | he
                      · exact hke e
                          (delIdx?_subset hd1 e (delIdx?_subset hd2 e he))
                      · have he' : e = ⟨(alloc ((h.set A.netsRef netsA).set
                            B.netsRef netsB) (netsA ++ netsB)).1, E0.f,
                            connect_s_dim A.s B.s⟩ := by simpa using he
                        have hr : (alloc ((h.set A.netsRef netsA).set B.netsRef
                            netsB) (netsA ++ netsB)).1 = h.length := by
                          simp [alloc, List.length_set]
                        rw [he']
                        show k ≤ (alloc ((h.set A.netsRef netsA).set B.netsRef
                          netsB) (netsA ++ netsB)).1
                        omega

theorem cascadeH_frame (k : Nat) (ids : List Int) :
    ∀ (h : Heap) (es : List HComponentSimulation) (h' : Heap)
      (es' : List HComponentSimulation),
    cascadeH ids h es = some (h', es') → k ≤ h.length →
    (∀ e ∈ es, k ≤ e.netsRef) →
    (∀ j, j < k → h'[j]? = h[j]?) ∧ k ≤ h'.length ∧ ∀ e ∈ es', k ≤ e.netsRef := by
  induction ids with
  | nil =>
    intro h es h' es' hrun hkh hke
    have hrun' : some (h, es) = some (h', es') := hrun
    have hp := Option.some.inj hrun'
    have h1 : h = h' := congrArg Prod.fst hp
    have h2 : es = es' := congrArg Prod.snd hp
    subst h1
    subst h2
    exact ⟨fun j hj => rfl, hkh, hke⟩
  | cons i ids ih =>
    intro h es h' es' hrun hkh hke
    unfold cascadeH at hrun
    rw [List.foldlM_cons] at hrun
    cases hs : connectStepH h es i with
    | none => rw [hs] at hrun; exact absurd hrun (by simp)
    | some p =>
      obtain ⟨h1, es1⟩ := p
      rw [hs] at hrun
      simp only [Option.bind_eq_bind, Option.some_bind] at hrun
      have hrun2 : cascadeH ids h1 es1 = some (h', es') := hrun
      obtain ⟨hf1, hl1, hm1⟩ := connectStepH_frame k h es i h1 es1 hs hkh hke
      obtain ⟨hf2, hl2, hm2⟩ := ih h1 es1 h' es' hrun2 hl1 hm1
      exact ⟨fun j hj => (hf2 j hj).trans (hf1 j hj), hl2, hm2⟩

/-- C9: a complete cascade run never changes any component instance's net
list.  Working entries are initialized from deep copies (fresh heap cells),
so every deletion performed while folding writes only to cells allocated at
or after the start of the run; every cell referenced by an original
component is left exactly as it was. -/
theorem cascade_preserves_component_net_lists (h : Heap)
    (nl : HObjectModelNetlist) (h2 : Heap) (e : HComponentSimulation)
    (exts : List HComponentInstance)
    (hrun : connect_circuitH h nl = some (h2, e, exts))
    (hvalid : ∀ c ∈ nl.component_list, c.netsRef < h.length) :
    ∀ c ∈ nl.component_list, h2[c.netsRef]? = h[c.netsRef]? := by
  intro c hc
  unfold connect_circuitH at hrun
  by_cases hz : nl.net_count = 0
  · rw [if_pos hz] at hrun
    exact absurd hrun (by simp)
  · rw [if_neg hz] at hrun
    cases hcas : cascadeH (pyRange 0 (nl.net_count + 1))
        (initEntriesH h nl.component_list).2
        (initEntriesH h nl.component_list).1 with
    | none => rw [hcas] at hrun; exact absurd hrun (by simp)
    | some p =>
      obtain ⟨h2', final⟩ := p
      rw [hcas] at hrun
      simp only [Option.map_eq_some'] at hrun
      obtain ⟨e0, -, heq⟩ := hrun
      have hh2 : h2' = h2 := congrArg Prod.fst heq
      subst hh2
      obtain ⟨hi1, hi2, hi3⟩ := initEntriesH_spec nl.component_list h
      obtain ⟨hf, -, -⟩ := cascadeH_frame h.length (pyRange 0 (nl.net_count + 1))
        (initEntriesH h nl.component_list).2 (initEntriesH h nl.component_list).1
        h2' final hcas hi2 hi3
      rw [hf c.netsRef (hvalid c hc), hi1 c.netsRef (hvalid c hc)]

/-- Witness for C9: on a concrete three-component run the cells referenced
by the original components are unchanged in the final heap. -/
theorem cascade_preserves_component_net_lists_witness :
    (([[0, -1], [0, 1], [1, -2], [-1], [1], [-2], [-1], [-2, -1]] : Heap))[0]? =
      (([[0, -1], [0, 1], [1, -2]] : Heap))[0]? ∧
    (([[0, -1], [0, 1], [1, -2], [-1], [1], [-2], [-1], [-2, -1]] : Heap))[1]? =
      (([[0, -1], [0, 1], [1, -2]] : Heap))[1]? ∧
    (([[0, -1], [0, 1], [1, -2], [-1], [1], [-2], [-1], [-2, -1]] : Heap))[2]? =
      (([[0, -1], [0, 1], [1, -2]] : Heap))[2]? :=
  have hthm := cascade_preserves_component_net_lists
    [[0, -1], [0, 1], [1, -2]]
    ⟨[⟨0, [1], 2⟩, ⟨1, [2], 2⟩, ⟨2, [3], 2⟩], 1⟩
    [[0, -1], [0, 1], [1, -2], [-1], [1], [-2], [-1], [-2, -1]]
    ⟨7, [3], 2⟩
    [⟨0, [1], 2⟩, ⟨2, [3], 2⟩]
    (by decide) (by decide)
  ⟨hthm ⟨0, [1], 2⟩ (by decide), hthm ⟨1, [2], 2⟩ (by decide),
    hthm ⟨2, [3], 2⟩ (by decide)⟩

/-! ### Numeric literals: str2float -/

/-- Exact scaled decimal `m * 10 ^ e`: the value domain of the numeric
literal reader.  CPython returns a binary float; the model keeps the exact
decimal value (float rounding is outside the model). -/
structure Sci where
  m : Int
  e : Int
  deriving DecidableEq, Repr

/-- Interprets a scaled decimal as a rational. -/
def Sci.toRat (x : Sci) : Rat := (x.m : Rat) * 10 ^ x.e

/-- Multiplies two scaled decimals. -/
def Sci.mul (x y : Sci) : Sci := ⟨x.m * y.m, x.e + y.e⟩

theorem Sci.toRat_mul (x y : Sci) : (Sci.mul x y).toRat = x.toRat * y.toRat := by
  unfold Sci.toRat Sci.mul
  have h10 : (10 : Rat) ≠ 0 := by norm_num
  rw [zpow_add₀ h10]
  push_cast
  ring

/-- Decimal digit characters, per the grammar class `[0-9]` of the siepic
plugin's `number` rule. -/
def digitChars : List Char := ['0', '1', '2', '3', '4', '5', '6', '7', '8', '9']

/-- Tests membership in `[0-9]`. -/
def isDigitC (c : Char) : Bool := digitChars.contains c

/-- ASCII letters, per the grammar class `[a-zA-Z]` that a one-letter unit
suffix is drawn from. -/
def letterChars : List Char :=
  ['a', 'b', 'c', 'd', 'e', 'f', 'g', 'h', 'i', 'j', 'k', 'l', 'm',
   'n', 'o', 'p', 'q', 'r', 's', 't', 'u', 'v', 'w', 'x', 'y', 'z',
   'A', 'B', 'C', 'D', 'E', 'F', 'G', 'H', 'I', 'J', 'K', 'L', 'M',
   'N', 'O', 'P', 'Q', 'R', 'S', 'T', 'U', 'V', 'W', 'X', 'Y', 'Z']

/-- Tests membership in `[a-zA-Z]`. -/
def isLetterC (c : Char) : Bool := letterChars.contains c

/-- Numeric value of one digit character. -/
def digitVal (c : Char) : Nat := c.toNat - 48

/-- Value of a digit string read most-significant first. -/
def digitsVal (cs : List Char) : Nat := cs.foldl (fun a c => 10 * a + digitVal c) 0

/-- Parses a non-empty all-digit string. -/
def parseNat? (cs : List Char) : Option Nat :=
  if cs.isEmpty then none
  else if cs.all isDigitC then some (digitsVal cs) else none

/-- Splits at the first decimal point, if any. -/
def splitAtDot : List Char → List Char × Option (List Char)
  | [] => ([], none)
  | c :: rest =>
    if c = '.' then ([], some rest)
    else
      let (a, b) := splitAtDot rest
      (c :: a, b)

/-- Parses an unsigned decimal — digits, optionally followed by one decimal
point and further digits — into the exact value
`digits(ip ++ fp) * 10 ^ (-len fp)`.  A second decimal point makes the
fraction part fail the digit check, rejecting the literal. -/
def parseUDec? (cs : List Char) : Option Sci :=
  match splitAtDot cs with
  | (ip, none) => (parseNat? ip).map (fun (n : Nat) => (⟨(n : Int), 0⟩ : Sci))
  | (ip, some fp) =>
    match parseNat? ip with
    | none => none
    | some _ =>
      if fp.all isDigitC then
        some ⟨(digitsVal (ip ++ fp) : Int), -(fp.length : Int)⟩
      else none

/-- Parses a decimal with an optional leading sign. -/
def parseDec? (cs : List Char) : Option Sci :=
  match cs with
  | [] => none
  | c :: rest =>
    if c = '-' then (parseUDec? rest).map (fun q => ⟨-q.m, q.e⟩)
    else if c = '+' then parseUDec? rest
    else parseUDec? (c :: rest)

/-- Parses an integer exponent with an optional leading sign. -/
def parseExpInt? (cs : List Char) : Option Int :=
  match cs with
  | [] => none
  | c :: rest =>
    if c = '-' then (parseNat? rest).map (fun (n : Nat) => -(n : Int))
    else if c = '+' then (parseNat? rest).map (fun (n : Nat) => (n : Int))
    else (parseNat? (c :: rest)).map (fun (n : Nat) => (n : Int))

/-- Splits at the first `e` or `E`, if any. -/
def splitAtExp : List Char → List Char × Option (List Char)
  | [] => ([], none)
  | c :: rest =>
    if c = 'e' ∨ c = 'E' then ([], some rest)
    else
      let (a, b) := splitAtExp rest
      (c :: a, b)

/-- Modelled from the spec: the SI-unit suffix table of
`simphony.tools.str2float` (module absent from the sources), each
multiplier an exact power of ten. -/
def siSuffix (c : Char) : Option Sci :=
  if c = 'f' then some ⟨1, -15⟩
  else if c = 'p' then some ⟨1, -12⟩
  else if c = 'n' then some ⟨1, -9⟩
  else if c = 'u' then some ⟨1, -6⟩
  else if c = 'm' then some ⟨1, -3⟩
  else if c = 'c' then some ⟨1, -2⟩
  else if c = 'k' then some ⟨1, 3⟩
  else if c = 'M' then some ⟨1, 6⟩
  else if c = 'G' then some ⟨1, 9⟩
  else if c = 'T' then some ⟨1, 12⟩
  else none

/-- Modelled from the spec: `simphony.tools.str2float` (the module is not
in the sources; only its tests and callers are).  A trailing letter from
the SI table scales the preceding decimal; a plain decimal or one with an
`e`/`E` exponent is read directly; an unrecognized trailing letter or a
second decimal point rejects the literal (`none` models the raised
`ValueError`). -/
def str2float (s : String) : Option Sci :=
  match s.data.getLast? with
  | none => none
  | some c =>
    match siSuffix c with
    | some mult => (parseDec? s.data.dropLast).map (fun q => Sci.mul q mult)
    | none =>
      if isLetterC c then none
      else
        match splitAtExp s.data with
        | (m, none) => parseDec? m
        | (m, some ex) =>
          match parseDec? m, parseExpInt? ex with
          | some q, some z => some (Sci.mul q ⟨1, z⟩)
          | _, _ => none

/-! ### Lemmas about the literal reader -/

theorem splitAtDot_spec : ∀ (cs ip : List Char) (r : Option (List Char)),
    splitAtDot cs = (ip, r) →
    ('.' ∉ ip) ∧ (r = none → cs = ip) ∧ (∀ fp, r = some fp → cs = ip ++ '.' :: fp)
  | [], ip, r => by
    intro h
    simp only [splitAtDot, Prod.mk.injEq] at h
    obtain ⟨rfl, rfl⟩ := h
    simp
  | c :: rest, ip, r => by
    intro h
    simp only [splitAtDot] at h
    by_cases hc : c = '.'
    · rw [if_pos hc] at h
      obtain ⟨rfl, rfl⟩ := Prod.mk.injEq .. ▸ h
      subst hc
      simp
    · rw [if_neg hc] at h
      obtain ⟨a, b, hab⟩ : ∃ a b, splitAtDot rest = (a, b) := ⟨_, _, rfl⟩
      rw [hab] at h
      obtain ⟨rfl, rfl⟩ := Prod.mk.injEq .. ▸ h
      obtain ⟨h1, h2, h3⟩ := splitAtDot_spec rest a b hab
      refine ⟨?_, fun hr => by rw [h2 hr], fun fp hr => by rw [h3 fp hr]; rfl⟩
      simp only [List.mem_cons, not_or]
      exact ⟨fun hh => hc hh.symm, h1⟩

theorem splitAtExp_spec : ∀ (cs m : List Char) (r : Option (List Char)),
    splitAtExp cs = (m, r) →
    ('e' ∉ m ∧ 'E' ∉ m) ∧ (r = none → cs = m) ∧
      (∀ ex, r = some ex → cs = m ++ 'e' :: ex ∨ cs = m ++ 'E' :: ex)
  | [], m, r => by
    intro h
    simp only [splitAtExp, Prod.mk.injEq] at h
    obtain ⟨rfl, rfl⟩ := h
    simp
  | c :: rest, m, r => by
    intro h
    simp only [splitAtExp] at h
    by_cases hc : c = 'e' ∨ c = 'E'
    · rw [if_pos hc] at h
      obtain ⟨rfl, rfl⟩ := Prod.mk.injEq .. ▸ h
      rcases hc with rfl | rfl
      · exact ⟨by simp, by simp, fun ex hex => by cases hex; exact Or.inl rfl⟩
      · exact ⟨by simp, by simp, fun ex hex => by cases hex; exact Or.inr rfl⟩
    · rw [if_neg hc] at h
      push_neg at hc
      obtain ⟨a, b, hab⟩ : ∃ a b, splitAtExp rest = (a, b) := ⟨_, _, rfl⟩
      rw [hab] at h
      obtain ⟨rfl, rfl⟩ := Prod.mk.injEq .. ▸ h
      obtain ⟨h1, h2, h3⟩ := splitAtExp_spec rest a b hab
      refine ⟨⟨?_, ?_⟩, fun hr => by rw [h2 hr], fun ex hr => ?_⟩
      · simp only [List.mem_cons, not_or]
        exact ⟨fun hh => hc.1 hh.symm, h1.1⟩
      · simp only [List.mem_cons, not_or]
        exact ⟨fun hh => hc.2 hh.symm, h1.2⟩
      rcases h3 ex hr with h3 | h3
      · exact Or.inl (by rw [h3]; rfl)
      · exact Or.inr (by rw [h3]; rfl)

theorem splitAtExp_of_not_mem (cs : List Char) (he : 'e' ∉ cs) (hE : 'E' ∉ cs) :
    splitAtExp cs = (cs, none) := by
  induction cs with
  | nil => rfl
  | cons c rest ih =>
    simp only [List.mem_cons, not_or] at he hE
    rw [splitAtExp, if_neg (by tauto), ih he.2 hE.2]

theorem splitAtExp_append (ms es : List Char) (ch : Char)
    (hch : ch = 'e' ∨ ch = 'E') (he : 'e' ∉ ms) (hE : 'E' ∉ ms) :
    splitAtExp (ms ++ ch :: es) = (ms, some es) := by
  induction ms with
  | nil => simp [splitAtExp, hch]
  | cons c rest ih =>
    simp only [List.mem_cons, not_or] at he hE
    rw [List.cons_append, splitAtExp, if_neg (by tauto), ih he.2 hE.2]

theorem getLast?_cons_of_ne_nil {α : Type} (c : α) {l : List α} (h : l ≠ []) :
    (c :: l).getLast? = l.getLast? := by
  cases l with
  | nil => exact absurd rfl h
  | cons x xs => exact List.getLast?_cons_cons

theorem last_char_exists {cs : List Char} (h : cs ≠ []) :
    ∃ c L, cs = L ++ [c] := by
  rcases List.eq_nil_or_concat cs with rfl | ⟨L, b, hb⟩
  · exact absurd rfl h
  · exact ⟨b, L, by rw [hb, List.concat_eq_append]⟩

theorem digit_char_facts (c : Char) (h : isDigitC c = true) :
    siSuffix c = none ∧ isLetterC c = false ∧ c ≠ '.' ∧ c ≠ 'e' ∧ c ≠ 'E' := by
  have hmem : c ∈ digitChars := by simpa [isDigitC, List.contains] using h
  simp only [digitChars, List.mem_cons, List.not_mem_nil, or_false] at hmem
  rcases hmem with rfl | rfl | rfl | rfl | rfl | rfl | rfl | rfl | rfl | rfl <;> decide

theorem parseNat?_some_facts {cs : List Char} {n : Nat} (h : parseNat? cs = some n) :
    cs ≠ [] ∧ ∀ c ∈ cs, isDigitC c = true := by
  unfold parseNat? at h
  by_cases h1 : cs.isEmpty
  · rw [if_pos h1] at h
    exact absurd h (by simp)
  · rw [if_neg h1] at h
    by_cases h2 : cs.all isDigitC
    · exact ⟨by simpa using h1, fun c hc => by
        have := List.all_eq_true.mp h2 c hc
        simpa using this⟩
    · rw [if_neg h2] at h
      exact absurd h (by simp)

theorem parseNat?_none_of_dot {cs : List Char} (h : '.' ∈ cs) :
    parseNat? cs = none := by
  unfold parseNat?
  rw [if_neg (by rcases cs with _ | _ <;> simp_all), if_neg]
  intro hall
  have := List.all_eq_true.mp hall '.' h
  simp [isDigitC, digitChars] at this

/-- A successfully parsed unsigned decimal ends in a digit or a dot. -/
theorem parseUDec?_last_char {cs : List Char} {q : Sci}
    (h : parseUDec? cs = some q) :
    ∃ c, cs.getLast? = some c ∧ (isDigitC c = true ∨ c = '.') := by
  unfold parseUDec? at h
  split at h
  next ip hs =>
    obtain ⟨hdot, hnone, -⟩ := splitAtDot_spec cs ip none hs
    simp only [Option.map_eq_some'] at h
    obtain ⟨n, hn, -⟩ := h
    obtain ⟨hne, hdig⟩ := parseNat?_some_facts hn
    obtain ⟨b, L, rfl⟩ := last_char_exists hne
    refine ⟨b, ?_, Or.inl (hdig b (by simp))⟩
    rw [hnone rfl]
    exact List.getLast?_concat _
  next ip fp hs =>
    obtain ⟨hdot, -, hsome⟩ := splitAtDot_spec cs ip (some fp) hs
    split at h
    next hn => exact absurd h (by simp)
    next n hn =>
      split at h
      next hall =>
        rw [hsome fp rfl]
        rcases List.eq_nil_or_concat fp with rfl | ⟨L, b, hb⟩
        · refine ⟨'.', ?_, Or.inr rfl⟩
          rw [show ip ++ ['.'] = ip ++ ['.'] from rfl]
          exact List.getLast?_concat _
        · rw [List.concat_eq_append] at hb
          subst hb
          refine ⟨b, ?_, Or.inl ?_⟩
          · rw [show ip ++ '.' :: (L ++ [b]) = (ip ++ '.' :: L) ++ [b] by simp]
            exact List.getLast?_concat _
          · have := List.all_eq_true.mp hall b (by simp)
            simpa using this
      next hall => exact absurd h (by simp)

theorem parseUDec?_nil : parseUDec? [] = none := rfl

/-- A successfully parsed signed decimal ends in a digit or a dot. -/
theorem parseDec?_last_char {cs : List Char} {q : Sci}
    (h : parseDec? cs = some q) :
    ∃ c, cs.getLast? = some c ∧ (isDigitC c = true ∨ c = '.') := by
  cases cs with
  | nil => exact absurd h (by simp [parseDec?])
  | cons c0 rest =>
    simp only [parseDec?] at h
    by_cases h1 : c0 = '-'
    · rw [if_pos h1] at h
      simp only [Option.map_eq_some'] at h
      obtain ⟨q', hq', -⟩ := h
      obtain ⟨c, hc, hfact⟩ := parseUDec?_last_char hq'
      have hne : rest ≠ [] := by
        rintro rfl
        rw [parseUDec?_nil] at hq'
        exact absurd hq' (by simp)
      exact ⟨c, by rw [getLast?_cons_of_ne_nil c0 hne]; exact hc, hfact⟩
    · rw [if_neg h1] at h
      by_cases h2 : c0 = '+'
      · rw [if_pos h2] at h
        obtain ⟨c, hc, hfact⟩ := parseUDec?_last_char h
        have hne : rest ≠ [] := by
          rintro rfl
          rw [parseUDec?_nil] at h
          exact absurd h (by simp)
        exact ⟨c, by rw [getLast?_cons_of_ne_nil c0 hne]; exact hc, hfact⟩
      · rw [if_neg h2] at h
        exact parseUDec?_last_char h

/-- A successfully parsed exponent ends in a digit. -/
theorem parseExpInt?_last_char {cs : List Char} {z : Int}
    (h : parseExpInt? cs = some z) :
    ∃ c, cs.getLast? = some c ∧ isDigitC c = true := by
  have core : ∀ (ds : List Char) (n : Nat), parseNat? ds = some n →
      ∃ c, ds.getLast? = some c ∧ isDigitC c = true := by
    intro ds n hn
    obtain ⟨hne, hdig⟩ := parseNat?_some_facts hn
    obtain ⟨b, L, rfl⟩ := last_char_exists hne
    exact ⟨b, List.getLast?_concat _, hdig b (by simp)⟩
  cases cs with
  | nil => exact absurd h (by simp [parseExpInt?])
  | cons c0 rest =>
    simp only [parseExpInt?] at h
    by_cases h1 : c0 = '-'
    · rw [if_pos h1] at h
      simp only [Option.map_eq_some'] at h
      obtain ⟨n, hn, -⟩ := h
      obtain ⟨c, hc, hd⟩ := core rest n hn
      have hne : rest ≠ [] := by
        rintro rfl
        exact absurd hn (by simp [parseNat?])
      exact ⟨c, by rw [getLast?_cons_of_ne_nil c0 hne]; exact hc, hd⟩
    · rw [if_neg h1] at h
      by_cases h2 : c0 = '+'
      · rw [if_pos h2] at h
        simp only [Option.map_eq_some'] at h
        obtain ⟨n, hn, -⟩ := h
        obtain ⟨c, hc, hd⟩ := core rest n hn
        have hne : rest ≠ [] := by
          rintro rfl
          exact absurd hn (by simp [parseNat?])
        exact ⟨c, by rw [getLast?_cons_of_ne_nil c0 hne]; exact hc, hd⟩
      · rw [if_neg h2] at h
        simp only [Option.map_eq_some'] at h
        obtain ⟨n, hn, -⟩ := h
        exact core (c0 :: rest) n hn

theorem parseUDec?_none_of_two_dots {cs : List Char}
    (hd : 2 ≤ cs.count '.') : parseUDec? cs = none := by
  unfold parseUDec?
  split
  next ip hs =>
    obtain ⟨hdot, hnone, -⟩ := splitAtDot_spec cs ip none hs
    rw [hnone rfl] at hd
    rw [List.count_eq_zero_of_not_mem hdot] at hd
    omega
  next ip fp hs =>
    obtain ⟨hdot, -, hsome⟩ := splitAtDot_spec cs ip (some fp) hs
    split
    · rfl
    · rw [if_neg]
      intro hall
      have hcnt : 1 ≤ fp.count '.' := by
        have hcc : ('.' :: fp).count '.' = fp.count '.' + 1 := by
          simp [List.count_cons]
        rw [hsome fp rfl, List.count_append,
          List.count_eq_zero_of_not_mem hdot, hcc] at hd
        omega
      have hmem : '.' ∈ fp := List.count_pos_iff.mp (by omega)
      have := List.all_eq_true.mp hall '.' hmem
      simp [isDigitC, digitChars] at this

theorem parseDec?_none_of_two_dots {cs : List Char}
    (hd : 2 ≤ cs.count '.') : parseDec? cs = none := by
  cases cs with
  | nil => rfl
  | cons c0 rest =>
    simp only [parseDec?]
    by_cases h1 : c0 = '-'
    · rw [if_pos h1]
      have : 2 ≤ rest.count '.' := by
        rw [List.count_cons] at hd
        subst h1
        simp at hd
        omega
      rw [parseUDec?_none_of_two_dots this]
      rfl
    · rw [if_neg h1]
      by_cases h2 : c0 = '+'
      · rw [if_pos h2]
        have : 2 ≤ rest.count '.' := by
          rw [List.count_cons] at hd
          subst h2
          simp at hd
          omega
        exact parseUDec?_none_of_two_dots this
      · rw [if_neg h2]
        exact parseUDec?_none_of_two_dots hd

theorem parseExpInt?_none_of_dot {cs : List Char} (h : '.' ∈ cs) :
    parseExpInt? cs = none := by
  cases cs with
  | nil => rfl
  | cons c0 rest =>
    simp only [parseExpInt?]
    by_cases h1 : c0 = '-'
    · rw [if_pos h1]
      have : '.' ∈ rest := by
        rcases List.mem_cons.mp h with hh | hh
        · exact absurd (hh.trans h1) (by decide)
        · exact hh
      rw [parseNat?_none_of_dot this]
      rfl
    · rw [if_neg h1]
      by_cases h2 : c0 = '+'
      · rw [if_pos h2]
        have : '.' ∈ rest := by
          rcases List.mem_cons.mp h with hh | hh
          · exact absurd (hh.trans h2) (by decide)
          · exact hh
        rw [parseNat?_none_of_dot this]
        rfl
      · rw [if_neg h2]
        rw [parseNat?_none_of_dot h]
        rfl

/-- C8: behaviour of `str2float`.  A decimal followed by one SI-table
letter is returned as the decimal value times the table multiplier (stated
both structurally and through the rational interpretation `Sci.toRat`); a
plain decimal, or one with an `e`/`E` exponent, is returned at its stated
value; an unrecognized trailing letter, or more than one decimal point,
rejects the literal. -/
theorem str2float_spec :
    (∀ (cs : List Char) (q : Sci) (c : Char) (mult : Sci),
      parseDec? cs = some q → siSuffix c = some mult →
      str2float ⟨cs ++ [c]⟩ = some (Sci.mul q mult) ∧
      (str2float ⟨cs ++ [c]⟩).map Sci.toRat = some (q.toRat * mult.toRat)) ∧
    (∀ (cs : List Char) (q : Sci),
      parseDec? cs = some q → 'e' ∉ cs → 'E' ∉ cs →
      str2float ⟨cs⟩ = some q) ∧
    (∀ (ms es : List Char) (q : Sci) (z : Int) (ch : Char),
      (ch = 'e' ∨ ch = 'E') →
      parseDec? ms = some q → parseExpInt? es = some z →
      'e' ∉ ms → 'E' ∉ ms →
      str2float ⟨ms ++ ch :: es⟩ = some (Sci.mul q ⟨1, z⟩)) ∧
    (∀ (cs : List Char) (c : Char),
      isLetterC c = true → siSuffix c = none →
      str2float ⟨cs ++ [c]⟩ = none) ∧
    (∀ s : String, 2 ≤ s.data.count '.' → str2float s = none) := by
  refine ⟨fun cs q c mult hq hsuf => ?_, fun cs q hq he hE => ?_,
    fun ms es q z ch hch hq hz hems hEms => ?_, fun cs c hlet hsuf => ?_,
    fun s hcount => ?_⟩
  · have h1 : str2float ⟨cs ++ [c]⟩ = some (Sci.mul q mult) := by
      simp only [str2float, List.getLast?_concat, hsuf, List.dropLast_concat, hq,
        Option.map_some']
    exact ⟨h1, by rw [h1, Option.map_some', Sci.toRat_mul]⟩
  · obtain ⟨c, hlast, hc⟩ := parseDec?_last_char hq
    have hsplit := splitAtExp_of_not_mem cs he hE
    rcases hc with hdig | rfl
    · obtain ⟨hsuf, hlet, -⟩ := digit_char_facts c hdig
      simp only [str2float, hlast, hsuf, hlet, hsplit, hq, Bool.false_eq_true,
        if_false]
    · have hsuf : siSuffix '.' = none := by decide
      have hlet : isLetterC '.' = false := by decide
      simp only [str2float, hlast, hsuf, hlet, hsplit, hq, Bool.false_eq_true,
        if_false]
  · obtain ⟨cl, hlastE, hdigE⟩ := parseExpInt?_last_char hz
    have hesne : es ≠ [] := by
      rintro rfl
      simp at hlastE
    have hlast : (ms ++ ch :: es).getLast? = some cl := by
      rw [List.getLast?_append_of_ne_nil ms (by simp),
        getLast?_cons_of_ne_nil ch hesne]
      exact hlastE
    obtain ⟨hsuf, hlet, -⟩ := digit_char_facts cl hdigE
    have hsplit := splitAtExp_append ms es ch hch hems hEms
    simp only [str2float, hlast, hsuf, hlet, hsplit, hq, hz, Bool.false_eq_true,
      if_false]
  · simp only [str2float, List.getLast?_concat, hsuf, hlet, if_true]
  · cases hlast : s.data.getLast? with
    | none =>
      rw [List.getLast?_eq_none_iff] at hlast
      rw [hlast] at hcount
      simp at hcount
    | some c =>
      have hre : s.data.dropLast ++ [c] = s.data :=
        List.dropLast_append_getLast? c (by rw [hlast]; rfl)
      cases hsuf : siSuffix c with
      | some mult =>
        have hcne : ¬ ('.' = c) := by
          rintro rfl
          rw [show siSuffix '.' = none from by decide] at hsuf
          exact absurd hsuf (by simp)
        have hd2 : 2 ≤ (s.data.dropLast).count '.' := by
          have hone : ([c] : List Char).count '.' = 0 := by
            rw [List.count_eq_zero_of_not_mem]
            simp only [List.mem_cons, List.not_mem_nil, or_false]
            exact hcne
          rw [← hre, List.count_append, hone] at hcount
          omega
        simp only [str2float, hlast, hsuf, parseDec?_none_of_two_dots hd2,
          Option.map_none']
      | none =>
        by_cases hlet : isLetterC c
        · simp only [str2float, hlast, hsuf, hlet, if_true]
        · obtain ⟨m, r, hse⟩ : ∃ a b, splitAtExp s.data = (a, b) := ⟨_, _, rfl⟩
          obtain ⟨⟨hem, hEm⟩, hnone, hsome⟩ := splitAtExp_spec s.data m r hse
          have hletf : isLetterC c = false := by simpa using hlet
          cases r with
          | none =>
            have hm2 : 2 ≤ m.count '.' := by rw [← hnone rfl]; exact hcount
            simp only [str2float, hlast, hsuf, hletf, hse,
              parseDec?_none_of_two_dots hm2, Bool.false_eq_true, if_false]
          | some ex =>
            have hcnt : 2 ≤ m.count '.' + ex.count '.' := by
              have hce : ('e' :: ex).count '.' = ex.count '.' := by
                rw [List.count_cons]
                simp
              have hcE : ('E' :: ex).count '.' = ex.count '.' := by
                rw [List.count_cons]
                simp
              rcases hsome ex rfl with hcs | hcs
              · rw [hcs, List.count_append, hce] at hcount
                omega
              · rw [hcs, List.count_append, hcE] at hcount
                omega
            by_cases hm2 : 2 ≤ m.count '.'
            · have hpm := parseDec?_none_of_two_dots hm2
              simp only [str2float, hlast, hsuf, hletf, hse, hpm,
                Bool.false_eq_true, if_false]
            · have hex : '.' ∈ ex := List.count_pos_iff.mp (by omega)
              have hpe := parseExpInt?_none_of_dot hex
              cases hpm : parseDec? m with
              | none =>
                simp only [str2float, hlast, hsuf, hletf, hse, hpm,
                  Bool.false_eq_true, if_false]
              | some qm =>
                simp only [str2float, hlast, hsuf, hletf, hse, hpm, hpe,
                  Bool.false_eq_true, if_false]

/-- Witness for C8 on the repository's own test vectors (exact scaled
decimals: `17.83f` is `1783 * 10^-17`, `15.2e-6` is `152 * 10^-7`). -/
theorem str2float_spec_witness :
    (str2float "17.83f" = some (Sci.mul ⟨1783, -2⟩ ⟨1, -15⟩) ∧
      (str2float "17.83f").map Sci.toRat =
        some ((⟨1783, -2⟩ : Sci).toRat * (⟨1, -15⟩ : Sci).toRat)) ∧
    str2float "2.53" = some ⟨253, -2⟩ ∧
    str2float "15.2e-6" = some (Sci.mul ⟨152, -1⟩ ⟨1, -6⟩) ∧
    str2float "17.3o" = none ∧
    str2float "17.3.5e7" = none :=
  ⟨str2float_spec.1 "17.83".data ⟨1783, -2⟩ 'f' ⟨1, -15⟩ (by decide) (by decide),
    str2float_spec.2.1 "2.53".data ⟨253, -2⟩ (by decide) (by decide) (by decide),
    str2float_spec.2.2.1 "15.2".data "-6".data ⟨152, -1⟩ (-6) 'e' (Or.inl rfl)
      (by decide) (by decide) (by decide) (by decide),
    str2float_spec.2.2.2.1 "17.3".data 'o' (by decide) (by decide),
    str2float_spec.2.2.2.2 "17.3.5e7" (by decide)⟩

/-! ### The siepic plugin's dynamic-list insert -/

/-- The copy loop `for i, v in enumerate(dlist): new[i] = v` of
`_dlist_insert`: writes the values of `vs` into `acc` starting at
position `i`. -/
def copyInto {α : Type} : Nat → List (Option α) → List (Option α) → List (Option α)
  | _, acc, [] => acc
  | i, acc, v :: vs => copyInto (i + 1) (acc.set i v) vs

/-- `_dlist_insert(dlist, index, element)` from
`src/simphony/plugins/siepic/__init__.py`: assigns in place when the index
is in range; on `IndexError` builds `[None] * (index + 1)`, copies the old
elements over, and sets the element.  Python's `None` is `none`. -/
def _dlist_insert {α : Type} (dlist : List (Option α)) (index : Nat) (element : α) :
    List (Option α) :=
  if index < dlist.length then dlist.set index (some element)
  else (copyInto 0 (List.replicate (index + 1) (none : Option α)) dlist).set index
    (some element)

theorem copyInto_length {α : Type} (vs : List (Option α)) (i : Nat)
    (acc : List (Option α)) : (copyInto i acc vs).length = acc.length := by
  induction vs generalizing i acc with
  | nil => rfl
  | cons v vs ih => simp [copyInto, ih]

theorem copyInto_getElem? {α : Type} (vs : List (Option α)) (i : Nat)
    (acc : List (Option α)) (h : i + vs.length ≤ acc.length) (j : Nat) :
    (copyInto i acc vs)[j]? =
      if i ≤ j ∧ j < i + vs.length then vs[j - i]? else acc[j]? := by
  induction vs generalizing i acc with
  | nil =>
    rw [copyInto, if_neg (by simp only [List.length_nil]; omega)]
  | cons v vs ih =>
    have hlen : i < acc.length := by
      simp only [List.length_cons] at h; omega
    rw [copyInto, ih (i + 1) (acc.set i v)
      (by rw [List.length_set]; simp only [List.length_cons] at h; omega)]
    by_cases hj : i ≤ j ∧ j < i + (v :: vs).length
    · rw [if_pos hj]
      rcases Nat.eq_or_lt_of_le hj.1 with rfl | hgt
      · rw [if_neg (by omega), Nat.sub_self, List.getElem?_cons_zero,
          List.getElem?_set_self (by omega)]
      · rw [if_pos (by simp only [List.length_cons] at hj; omega)]
        have : j - i = (j - (i + 1)) + 1 := by omega
        rw [this, List.getElem?_cons_succ]
    · rw [if_neg hj, if_neg (by simp only [List.length_cons] at hj ⊢; omega)]
      have hji : ¬ i = j := by
        simp only [List.length_cons] at hj; omega
      rw [List.getElem?_set_ne hji]

/-- C10: `_dlist_insert` overwrites position `i` when `i < len(dlist)`;
otherwise it builds a list of length `i + 1` keeping every original element
at its position, with the element at position `i` and `None` at every other
new position.  In both cases the result has the element at position `i` and
length `max(len(dlist), i + 1)`. -/
theorem dlist_insert_spec {α : Type} (dlist : List (Option α)) (i : Nat) (e : α) :
    (i < dlist.length → _dlist_insert dlist i e = dlist.set i (some e)) ∧
    (dlist.length ≤ i →
      ((∀ j, j < dlist.length → (_dlist_insert dlist i e)[j]? = dlist[j]?) ∧
        (∀ j, dlist.length ≤ j → j < i → (_dlist_insert dlist i e)[j]? = some none))) ∧
    (_dlist_insert dlist i e)[i]? = some (some e) ∧
    (_dlist_insert dlist i e).length = max dlist.length (i + 1) := by
  by_cases h : i < dlist.length
  · unfold _dlist_insert
    rw [if_pos h]
    refine ⟨fun _ => rfl, fun hle => absurd h (by omega), ?_, ?_⟩
    · rw [List.getElem?_set_self h]
    · rw [List.length_set]
      omega
  · have hle : dlist.length ≤ i := by omega
    unfold _dlist_insert
    rw [if_neg h]
    have hcl : (copyInto 0 (List.replicate (i + 1) (none : Option α)) dlist).length =
        i + 1 := by
      rw [copyInto_length, List.length_replicate]
    have hget := copyInto_getElem? dlist 0
      (List.replicate (i + 1) (none : Option α)) (by simp; omega)
    refine ⟨fun hlt => absurd hlt h, fun _ => ⟨fun j hj => ?_, fun j hj1 hj2 => ?_⟩,
      ?_, ?_⟩
    · rw [List.getElem?_set_ne (by omega), hget j, if_pos (by omega), Nat.sub_zero]
    · rw [List.getElem?_set_ne (by omega), hget j, if_neg (by omega),
        List.getElem?_replicate_of_lt (by omega)]
    · rw [List.getElem?_set_self (by omega)]
    · rw [List.length_set, hcl]
      omega

/-- Witness for C10: both the in-range overwrite and the growing branch at
concrete inputs. -/
theorem dlist_insert_spec_witness :
    _dlist_insert [some 5, none] 0 7 = ([some 5, none] : List (Option Nat)).set 0 (some 7) ∧
    ((_dlist_insert ([some 5, none] : List (Option Nat)) 3 9)[0]? = some (some 5) ∧
      (_dlist_insert ([some 5, none] : List (Option Nat)) 3 9)[2]? = some none) ∧
    (_dlist_insert ([some 5, none] : List (Option Nat)) 3 9)[3]? = some (some 9) ∧
    (_dlist_insert ([some 5, none] : List (Option Nat)) 3 9).length = max 2 4 :=
  ⟨(dlist_insert_spec [some 5, none] 0 7).1 (by decide),
    ⟨((dlist_insert_spec ([some 5, none] : List (Option Nat)) 3 9).2.1 (by decide)).1 0
        (by decide),
      ((dlist_insert_spec ([some 5, none] : List (Option Nat)) 3 9).2.1 (by decide)).2 2
        (by decide) (by decide)⟩,
    (dlist_insert_spec ([some 5, none] : List (Option Nat)) 3 9).2.2.1,
    (dlist_insert_spec ([some 5, none] : List (Option Nat)) 3 9).2.2.2⟩

end Simphony
